import Mathlib

/-!
A verification development for `watch.py`, a markdown file watcher that
debounces and coalesces raw filesystem events, mirrors tracked files into a
mirror directory, and maintains a sorted JSON index of tracked paths.

The Python source is shallowly embedded: paths are modelled as lists of
components (`PyPath`), the pending-event dictionary as an ordered association
list (Python dicts preserve insertion order), the filesystem as a finite tree,
and fallible I/O primitives as explicit outcome environments.
-/

namespace WatchModel

/-- A filesystem path, modelled as its list of components (resolved form). -/
abbrev PyPath := List String

/-- `SKIP_DIRS` from the source configuration. -/
def SKIP_DIRS : List String := ["__pycache__", ".git", ".venv", "node_modules"]

/-- Python `str.lower()`, code-point-wise (kernel-computable form; only the
ASCII range matters for the extension predicate). -/
def lowerStr (s : String) : String := ⟨s.data.map Char.toLower⟩

/-- Python `str.endswith(suffix)` over code points. -/
def endsWithStr (s suffix : String) : Bool := suffix.data.isSuffixOf s.data

/-- Python `str.startswith(pre)` over code points. -/
def startsWithStr (s pre : String) : Bool := pre.data.isPrefixOf s.data

/-- `should_include_dir(dirname)`: skip-set members are excluded, `.claude*`
directories are allowed, other dot-directories are excluded. -/
def should_include_dir (dirname : String) : Bool :=
  if SKIP_DIRS.contains dirname then false
  else if startsWithStr dirname ".claude" then true
  else if startsWithStr dirname "." then false
  else true

/-- `should_include_path(rel_path)`: no directory component (all components
except the last) may be a dot-directory other than `.claude*`. -/
def should_include_path (relPath : PyPath) : Bool :=
  relPath.dropLast.all
    (fun part => !(startsWithStr part "." && !startsWithStr part ".claude"))

/-- `is_md_file(path)`: the lowercased string form ends with `".md"`. -/
def is_md_file (path : String) : Bool :=
  endsWithStr (lowerStr path) ".md"

/-- Render a component list as a POSIX-style path string (`Path.as_posix`). -/
def posixStr : PyPath → String
  | [] => ""
  | [x] => x
  | x :: xs => x ++ "/" ++ posixStr xs

/-- `is_md_file` applied to a structured path (`str(path)`). -/
def is_md_path (p : PyPath) : Bool := is_md_file (posixStr p)

/-- `path.relative_to(root)`: succeeds exactly when `root` is a prefix. -/
def getRelPath (root p : PyPath) : Option PyPath :=
  if root.isPrefixOf p then some (p.drop root.length) else none

/-- Configuration of an `MDHandler`: the watched root and the optional
mirror directory (both resolved). -/
structure HandlerCfg where
  root : PyPath
  mirror_to : Option PyPath

/-- `MDHandler._should_handle`: markdown extension, not inside the mirror
directory, under the root, and visible per the hidden-directory rules. -/
def MDHandler.should_handle (cfg : HandlerCfg) (p : PyPath) : Bool :=
  if !is_md_path p then false
  else if (match cfg.mirror_to with
           | some m => m.isPrefixOf p
           | none => false) then false
  else match getRelPath cfg.root p with
    | some rel => should_include_path rel
    | none => false

/-- The pending-event dictionary `dict[str, tuple[str, Optional[str]]]`,
keyed by source path, in insertion order. -/
abbrev PendingMap := List (PyPath × (String × Option PyPath))

/-- Dictionary lookup. -/
def pmGet : PendingMap → PyPath → Option (String × Option PyPath)
  | [], _ => none
  | e :: rest, k => if e.1 = k then some e.2 else pmGet rest k

/-- Dictionary assignment: overwrite in place if the key exists (keeping its
position, as Python dicts do), else append. -/
def pmSet : PendingMap → PyPath → (String × Option PyPath) → PendingMap
  | [], k, v => [(k, v)]
  | e :: rest, k, v => if e.1 = k then (k, v) :: rest else e :: pmSet rest k v

/-- Keys of a pending map. -/
def pmKeys (m : PendingMap) : List PyPath := m.map (·.1)

/-- Well-formedness: dictionary keys are distinct. -/
def pmWF (m : PendingMap) : Prop := (pmKeys m).Nodup

/-- `MDHandler._queue_event`: record the event for the path, collapsing a
pending `deleted` followed by a `created` into `modified`. -/
def MDHandler.queue_event (m : PendingMap) (event_type : String)
    (src : PyPath) (dest : Option PyPath) : PendingMap :=
  let et :=
    match pmGet m src with
    | some existing =>
        if existing.1 = "deleted" && event_type = "created" then "modified"
        else event_type
    | none => event_type
  pmSet m src (et, dest)

/-- `MDHandler.on_created` (file events only): queue when `_should_handle`. -/
def MDHandler.on_created (cfg : HandlerCfg) (m : PendingMap) (src : PyPath) :
    PendingMap :=
  if MDHandler.should_handle cfg src then
    MDHandler.queue_event m "created" src none
  else m

/-- `MDHandler.on_modified` (file events only): queue when `_should_handle`. -/
def MDHandler.on_modified (cfg : HandlerCfg) (m : PendingMap) (src : PyPath) :
    PendingMap :=
  if MDHandler.should_handle cfg src then
    MDHandler.queue_event m "modified" src none
  else m

/-- `MDHandler.on_deleted` (file events only): queue when the path has the
markdown extension and lies under the root (no mirror or hidden-dir check). -/
def MDHandler.on_deleted (cfg : HandlerCfg) (m : PendingMap) (src : PyPath) :
    PendingMap :=
  if is_md_path src then
    if (getRelPath cfg.root src).isSome then
      MDHandler.queue_event m "deleted" src none
    else m
  else m

/-- `MDHandler.on_moved` (file events only): dispatch on which endpoints have
the markdown extension. -/
def MDHandler.on_moved (cfg : HandlerCfg) (m : PendingMap)
    (src dest : PyPath) : PendingMap :=
  let src_is_md := is_md_path src
  let dest_is_md := is_md_path dest
  if src_is_md && !dest_is_md then
    if (getRelPath cfg.root src).isSome then
      MDHandler.queue_event m "deleted" src none
    else m
  else if !src_is_md && dest_is_md then
    if MDHandler.should_handle cfg dest then
      MDHandler.queue_event m "created" dest none
    else m
  else if src_is_md && dest_is_md then
    MDHandler.queue_event m "moved" src (some dest)
  else m

/-- The mirror directory contents: relative path to file content. -/
abbrev FileMap := List (PyPath × String)

/-- Mirror lookup by relative path. -/
def fmGet : FileMap → PyPath → Option String
  | [], _ => none
  | e :: rest, k => if e.1 = k then some e.2 else fmGet rest k

/-- Mirror write (overwrite or create). -/
def fmSet : FileMap → PyPath → String → FileMap
  | [], k, v => [(k, v)]
  | e :: rest, k, v => if e.1 = k then (k, v) :: rest else e :: fmSet rest k v

/-- Mirror unlink (`_mirror_delete` semantics: no error when missing). -/
def fmErase (m : FileMap) (k : PyPath) : FileMap :=
  m.filter (fun e => !decide (e.1 = k))

/-- One low-level mirror operation performed by `_process_pending`. -/
inductive MirrorOp where
  | copy (src : PyPath)
  | delete (src : PyPath)
  | rebuild
  deriving DecidableEq

/-- The mirror operations one pending entry triggers in `_process_pending`:
`deleted` runs `_mirror_delete`; `moved` with a destination runs
`_mirror_move` (delete, then copy the destination if it exists in the
watched tree); anything else runs `_mirror_copy`. -/
def MDHandler.action_ops (watched : PyPath → Option String)
    (e : PyPath × (String × Option PyPath)) : List MirrorOp :=
  let src := e.1
  let event_type := e.2.1
  match e.2.2 with
  | some dest =>
      if event_type = "deleted" then [MirrorOp.delete src]
      else if event_type = "moved" then
        MirrorOp.delete src ::
          (if (watched dest).isSome then [MirrorOp.copy dest] else [])
      else [MirrorOp.copy src]
  | none =>
      if event_type = "deleted" then [MirrorOp.delete src]
      else [MirrorOp.copy src]

/-- The operation trace of `MDHandler._process_pending` on a drained batch:
nothing when the batch is empty; otherwise one mirror operation group per
pending entry (when a mirror is configured) followed by exactly one index
rebuild. -/
def MDHandler.process_pending_ops (mirrorEnabled : Bool)
    (watched : PyPath → Option String) (events : PendingMap) : List MirrorOp :=
  if events.isEmpty then []
  else
    (if mirrorEnabled then events.flatMap (MDHandler.action_ops watched) else [])
      ++ [MirrorOp.rebuild]

/-- Apply one mirror operation to the mirror state. `copy src` models
`_mirror_copy`: it re-derives the relative path, and the underlying
`copy_file_with_retry` succeeds only when the source exists in the watched
tree and the copy oracle reports success (file stable within the retry
budget). `delete src` models `_mirror_delete`. `rebuild` does not touch the
mirror. -/
def applyOp (root : PyPath) (watched : PyPath → Option String)
    (copyOk : PyPath → Bool) (mirror : FileMap) : MirrorOp → FileMap
  | MirrorOp.copy src =>
      match getRelPath root src with
      | none => mirror
      | some rel =>
          match watched src with
          | some c => if copyOk src then fmSet mirror rel c else mirror
          | none => mirror
  | MirrorOp.delete src =>
      match getRelPath root src with
      | none => mirror
      | some rel => fmErase mirror rel
  | MirrorOp.rebuild => mirror

/-- Apply a trace of mirror operations in order. -/
def applyOps (root : PyPath) (watched : PyPath → Option String)
    (copyOk : PyPath → Bool) (mirror : FileMap) (ops : List MirrorOp) :
    FileMap :=
  ops.foldl (applyOp root watched copyOk) mirror

/-- `MDHandler._mirror_delete`: remove the mirror entry at the source's
relative path when the source lies under the root. -/
def MDHandler.mirror_delete (root : PyPath) (mirror : FileMap)
    (src : PyPath) : FileMap :=
  match getRelPath root src with
  | some rel => fmErase mirror rel
  | none => mirror

/-- `MDHandler._mirror_copy`: copy the watched file at `src` to the mirror at
its relative path; returns the new mirror state and the success flag. -/
def MDHandler.mirror_copy (root : PyPath) (watched : PyPath → Option String)
    (copyOk : PyPath → Bool) (mirror : FileMap) (src : PyPath) :
    FileMap × Bool :=
  match getRelPath root src with
  | none => (mirror, false)
  | some rel =>
      match watched src with
      | some c => if copyOk src then (fmSet mirror rel c, true) else (mirror, false)
      | none => (mirror, false)

/-- `MDHandler._mirror_move`: delete the old mirror entry, then copy the
destination if it exists in the watched tree. -/
def MDHandler.mirror_move (root : PyPath) (watched : PyPath → Option String)
    (copyOk : PyPath → Bool) (mirror : FileMap) (src dest : PyPath) :
    FileMap :=
  let m1 := MDHandler.mirror_delete root mirror src
  if (watched dest).isSome then
    (MDHandler.mirror_copy root watched copyOk m1 dest).1
  else m1

/-! ## Stability probe and retrying copier -/

/-- Outcome of one fallible I/O primitive: a value, or a raised `OSError`. -/
inductive IOOutcome (α : Type) where
  | ok (a : α)
  | raised
  deriving DecidableEq

/-- Environment for one `is_file_stable` call: the results of the initial
`exists()`/`is_file()` checks and of each of the two `stat().st_size`
samples (which may raise). -/
structure StableEnv where
  exists0 : Bool
  isFile0 : Bool
  stat0 : IOOutcome Nat
  stat1 : IOOutcome Nat

/-- `is_file_stable`: the whole body runs under `try`, and any `OSError`
yields `False`. Returns `True` exactly when the initial checks pass, both
size samples succeed, and the sizes are equal. -/
def is_file_stable (env : StableEnv) : Bool :=
  let body : Except Unit Bool :=
    if !(env.exists0 && env.isFile0) then Except.ok false
    else
      match env.stat0 with
      | IOOutcome.raised => Except.error ()
      | IOOutcome.ok s1 =>
          match env.stat1 with
          | IOOutcome.raised => Except.error ()
          | IOOutcome.ok s2 => Except.ok (s1 = s2)
  match body with
  | Except.ok b => b
  | Except.error _ => false

/-- `COPY_RETRY_ATTEMPTS` from the source configuration. -/
def COPY_RETRY_ATTEMPTS : Nat := 5

/-- Environment for one `copy_file_with_retry` call: whether
`dst.parent.mkdir(parents=True, exist_ok=True)` succeeds, and, per attempt
index, the results of the existence check (`src.exists() and
src.is_file()`), the stability probe, and the `shutil.copy2` byte copy. -/
structure CopyEnv where
  mkdirOk : Bool
  srcExists : Nat → IOOutcome Bool
  stable : Nat → Bool
  copy2 : Nat → IOOutcome Unit

/-- The attempt loop of `copy_file_with_retry`, started at attempt `i` with
`fuel` attempts remaining. Any `OSError` raised inside the loop body is
caught by the `except` clause and the loop continues with the next attempt;
a failed existence check returns `False` immediately; an unstable file skips
the attempt. -/
def copyAttempts (env : CopyEnv) : Nat → Nat → Bool
  | 0, _ => false
  | fuel + 1, i =>
      match env.srcExists i with
      | IOOutcome.raised => copyAttempts env fuel (i + 1)
      | IOOutcome.ok false => false
      | IOOutcome.ok true =>
          if !env.stable i then copyAttempts env fuel (i + 1)
          else
            match env.copy2 i with
            | IOOutcome.ok _ => true
            | IOOutcome.raised => copyAttempts env fuel (i + 1)

/-- `copy_file_with_retry`: the `mkdir` call sits before (outside) the
`try`-guarded attempt loop, so a directory-creation failure propagates as an
exception (`Except.error`); otherwise the call returns a boolean. -/
def copy_file_with_retry (env : CopyEnv) (retries : Nat) : Except Unit Bool :=
  if env.mkdirOk then Except.ok (copyAttempts env retries 0)
  else Except.error ()

/-! ## Sorting (Python `sorted` on strings: lexicographic by code point) -/

/-- Lexicographic comparison of character lists (code-point order). -/
def charListLe : List Char → List Char → Bool
  | [], _ => true
  | _ :: _, [] => false
  | a :: as, b :: bs =>
      if a < b then true else if b < a then false else charListLe as bs

/-- String comparison as Python compares strings. -/
def strLe (a b : String) : Bool := charListLe a.data b.data

/-- Insert a string into a sorted list. -/
def insertStr (x : String) : List String → List String
  | [] => [x]
  | y :: ys => if strLe x y then x :: y :: ys else y :: insertStr x ys

/-- Sort a list of strings ascending (Python `sorted`; a linear order makes
the sorted permutation unique, so the algorithm choice is immaterial). -/
def sortStrings : List String → List String
  | [] => []
  | x :: xs => insertStr x (sortStrings xs)

/-! ## Filesystem tree and `walk_md_files` -/

mutual
/-- A directory entry's contents: a regular file or a directory. -/
inductive FSTree : Type where
  | file : FSTree
  | dir : FSEntries → FSTree

/-- The named entries of one directory. -/
inductive FSEntries : Type where
  | nil : FSEntries
  | cons : String → FSTree → FSEntries → FSEntries
end

/-- The names listed in a directory. -/
def FSEntries.names : FSEntries → List String
  | FSEntries.nil => []
  | FSEntries.cons n _ rest => n :: rest.names

/-- The names of the regular files in a directory (`filenames` of `os.walk`). -/
def FSEntries.fileNames : FSEntries → List String
  | FSEntries.nil => []
  | FSEntries.cons n FSTree.file rest => n :: rest.fileNames
  | FSEntries.cons _ (FSTree.dir _) rest => rest.fileNames

/-- Every regular file under a directory, as a path relative to it. -/
def FSEntries.filePaths : FSEntries → List (List String)
  | FSEntries.nil => []
  | FSEntries.cons n FSTree.file rest => [n] :: rest.filePaths
  | FSEntries.cons n (FSTree.dir e) rest =>
      (e.filePaths.map (fun q => n :: q)) ++ rest.filePaths

/-- A valid entry name: nonempty and without a path separator. -/
def validName (n : String) : Bool :=
  !decide (n = "") && !(n.data.contains '/')

mutual
/-- Well-formed tree: every directory has distinct, valid entry names. -/
def FSTree.wfB : FSTree → Bool
  | FSTree.file => true
  | FSTree.dir e => e.wfB

/-- Well-formed entry list (see `FSTree.wfB`). -/
def FSEntries.wfB : FSEntries → Bool
  | FSEntries.nil => true
  | FSEntries.cons n t rest =>
      validName n && !(rest.names.contains n) && t.wfB && rest.wfB
end

/-- The walk's exclusion test on a directory's resolved path: the excluded
directory equals it or is among its ancestors. -/
def excludedDir : Option PyPath → PyPath → Bool
  | none, _ => false
  | some e, p => e.isPrefixOf p

/-- The walk's depth cutoff: `depth >= max_depth`. -/
def depthStop : Option Nat → Nat → Bool
  | none, _ => false
  | some m, d => decide (m ≤ d)

/-- The markdown files yielded at one directory of the walk: the directory's
filenames, sorted, kept when they have the extension and the relative path
passes the visibility rules. -/
def walkFiles (e : FSEntries) (relDir : List String) : List (List String) :=
  (sortStrings e.fileNames).filterMap (fun n =>
    if is_md_file n && should_include_path (relDir ++ [n]) then
      some (relDir ++ [n])
    else none)

/-- Descent of `walk_md_files` below one directory: subdirectories admitted
by `should_include_dir` are visited in turn, each visit stopping on the
excluded subtree or at the depth cutoff and otherwise yielding its markdown
files and descending further. -/
def walkSubdirs (root : PyPath) (maxDepth : Option Nat)
    (exclude : Option PyPath) : FSEntries → List String → List (List String)
  | FSEntries.nil, _ => []
  | FSEntries.cons _ FSTree.file rest, relDir =>
      walkSubdirs root maxDepth exclude rest relDir
  | FSEntries.cons n (FSTree.dir e) rest, relDir =>
      (if should_include_dir n then
        if excludedDir exclude (root ++ (relDir ++ [n])) then []
        else if depthStop maxDepth (relDir ++ [n]).length then []
        else walkFiles e (relDir ++ [n])
          ++ walkSubdirs root maxDepth exclude e (relDir ++ [n])
      else [])
      ++ walkSubdirs root maxDepth exclude rest relDir

/-- One `os.walk` iteration of `walk_md_files` at the directory `relDir`
below `root`, with contents `e`: stop on the excluded subtree or at the
depth cutoff; otherwise yield this directory's markdown files and descend. -/
def walkVisit (root : PyPath) (maxDepth : Option Nat) (exclude : Option PyPath)
    (e : FSEntries) (relDir : List String) : List (List String) :=
  if excludedDir exclude (root ++ relDir) then []
  else if depthStop maxDepth relDir.length then []
  else walkFiles e relDir ++ walkSubdirs root maxDepth exclude e relDir

/-- `walk_md_files(root, max_depth, exclude_dir)` over the model tree:
relative paths of every markdown file reached by the pruned walk. -/
def walk_md_files (root : PyPath) (tree : FSEntries) (maxDepth : Option Nat)
    (exclude : Option PyPath) : List (List String) :=
  walkVisit root maxDepth exclude tree []

/-- `build_index`: the sorted POSIX renderings of the walked paths. -/
def build_index (root : PyPath) (tree : FSEntries) (maxDepth : Option Nat)
    (exclude : Option PyPath) : List String :=
  sortStrings ((walk_md_files root tree maxDepth exclude).map posixStr)

/-! ## Atomic index write (`write_index`) -/

/-- On-disk state of the index: the document at the output path and the
document at the temporary path, if any. -/
structure IndexState where
  outDoc : Option String
  tmpDoc : Option String
  deriving DecidableEq

/-- The failure rungs of a `write_index` call. -/
inductive IndexErr where
  | enumFail
  | writeFail
  | renameFail
  deriving DecidableEq

/-- Environment for one `write_index` call: whether enumeration
(`build_index`), the temporary-file write, and the atomic rename succeed;
`written` is how much of the document reached the temporary file when the
write fails mid-way. -/
structure IndexEnv where
  enumOk : Bool
  writeOk : Bool
  written : Nat
  renameOk : Bool

/-- `json.dumps` of the path list, abstracted to an injective rendering. -/
def serializeIndex (paths : List String) : String :=
  "[" ++ String.intercalate ", " (paths.map (fun s => "\"" ++ s ++ "\"")) ++ "]"

/-- `write_index`: enumerate via `build_index`, write the serialized document
to the temporary path, then atomically rename it over the output path. A
failure at any rung leaves the function with an exception and the states as
they were at that point. -/
def write_index (env : IndexEnv) (root : PyPath) (tree : FSEntries)
    (maxDepth : Option Nat) (exclude : Option PyPath) (st : IndexState) :
    IndexState × Except IndexErr Nat :=
  if !env.enumOk then (st, Except.error IndexErr.enumFail)
  else
    let md_paths := build_index root tree maxDepth exclude
    let doc := serializeIndex md_paths
    if !env.writeOk then
      ({ st with tmpDoc := some (doc.take env.written) },
       Except.error IndexErr.writeFail)
    else if !env.renameOk then
      ({ st with tmpDoc := some doc }, Except.error IndexErr.renameFail)
    else ({ outDoc := some doc, tmpDoc := none }, Except.ok md_paths.length)

/-! ## Derived views used by the theorems -/

/-- Multiplicity of one mirror operation in a trace. -/
def countOp (o : MirrorOp) (ops : List MirrorOp) : Nat :=
  ops.countP (fun x => decide (x = o))

/-- The pending map produced by `n` rapid `modified` raw events for one path
starting from an empty window. -/
def queueModifiedN (p : PyPath) : Nat → PendingMap
  | 0 => []
  | n + 1 => MDHandler.queue_event (queueModifiedN p n) "modified" p none

/-- The subdirectory entries of a directory listing. -/
def FSEntries.subdirsOf : FSEntries → List (String × FSEntries)
  | FSEntries.nil => []
  | FSEntries.cons _ FSTree.file rest => rest.subdirsOf
  | FSEntries.cons n (FSTree.dir e) rest => (n, e) :: rest.subdirsOf

/-- The conditions under which the walk, visiting `relDir`, yields the file
at `relDir ++ q`: markdown extension, admitted directory components,
visibility of the relative path, and depth and exclusion tests at the file's
directory (the binding instances of the per-level tests). -/
def walkCond (root : PyPath) (m : Option Nat) (ex : Option PyPath)
    (relDir q : List String) : Bool :=
  (match q.getLast? with
   | some n => is_md_file n
   | none => false)
  && q.dropLast.all should_include_dir
  && should_include_path (relDir ++ q)
  && !depthStop m (relDir.length + q.dropLast.length)
  && !excludedDir ex (root ++ (relDir ++ q.dropLast))

/-- The tracked-file predicate on a relative path, written from the spec:
extension filter, hidden-directory rules on every directory component,
depth limit, and mirror exclusion when applicable. -/
def trackedSpec (root : PyPath) (m : Option Nat) (ex : Option PyPath)
    (rel : List String) : Bool :=
  (match rel.getLast? with
   | some n => is_md_file n
   | none => false)
  && rel.dropLast.all should_include_dir
  && !depthStop m rel.dropLast.length
  && !excludedDir ex (root ++ rel.dropLast)

/-- Sortedness of a string list in Python's ascending lexicographic order. -/
def SortedStr (l : List String) : Prop :=
  l.Pairwise (fun a b => strLe a b = true)

/-! ## Association-list lemmas -/

theorem pmGet_pmSet_self (m : PendingMap) (k : PyPath)
    (v : String × Option PyPath) : pmGet (pmSet m k v) k = some v := by
  induction m with
  | nil => simp [pmSet, pmGet]
  | cons e rest ih =>
      by_cases h : e.1 = k
      · simp [pmSet, pmGet, h]
      · simp [pmSet, pmGet, h, ih]

theorem pmGet_pmSet_ne (m : PendingMap) (k k' : PyPath)
    (v : String × Option PyPath) (h : k' ≠ k) :
    pmGet (pmSet m k v) k' = pmGet m k' := by
  induction m with
  | nil => simp [pmSet, pmGet, Ne.symm h]
  | cons e rest ih =>
      by_cases he : e.1 = k
      · rw [pmSet, if_pos he, pmGet, if_neg (Ne.symm h), pmGet, if_neg]
        rw [he]; exact Ne.symm h
      · rw [pmSet, if_neg he, pmGet, pmGet]
        by_cases he' : e.1 = k'
        · rw [if_pos he', if_pos he']
        · rw [if_neg he', if_neg he', ih]

theorem pmKeys_pmSet (m : PendingMap) (k : PyPath)
    (v : String × Option PyPath) :
    pmKeys (pmSet m k v) = if k ∈ pmKeys m then pmKeys m else pmKeys m ++ [k] := by
  induction m with
  | nil => simp [pmSet, pmKeys]
  | cons e rest ih =>
      by_cases h : e.1 = k
      · simp [pmSet, pmKeys, h]
      · simp only [pmSet, pmKeys, List.map, if_neg h, List.mem_cons]
        rw [show pmKeys (pmSet rest k v) = List.map (·.1) (pmSet rest k v) from rfl] at *
        by_cases hk : k ∈ List.map (fun e => e.1) rest
        · simp_all [pmKeys, Ne.symm h]
        · simp_all [pmKeys, Ne.symm h]

theorem pmWF_pmSet (m : PendingMap) (k : PyPath) (v : String × Option PyPath)
    (h : pmWF m) : pmWF (pmSet m k v) := by
  unfold pmWF
  rw [pmKeys_pmSet]
  by_cases hk : k ∈ pmKeys m
  · simpa [hk] using h
  · simp only [hk, if_false]
    simpa [pmWF, List.nodup_append] using ⟨h, hk⟩

theorem fmGet_fmSet_self (m : FileMap) (k : PyPath) (v : String) :
    fmGet (fmSet m k v) k = some v := by
  induction m with
  | nil => simp [fmSet, fmGet]
  | cons e rest ih =>
      by_cases h : e.1 = k
      · simp [fmSet, fmGet, h]
      · simp [fmSet, fmGet, h, ih]

theorem fmGet_fmSet_ne (m : FileMap) (k k' : PyPath) (v : String)
    (h : k' ≠ k) : fmGet (fmSet m k v) k' = fmGet m k' := by
  induction m with
  | nil => simp [fmSet, fmGet, Ne.symm h]
  | cons e rest ih =>
      by_cases he : e.1 = k
      · rw [fmSet, if_pos he, fmGet, if_neg (Ne.symm h), fmGet, if_neg]
        rw [he]; exact Ne.symm h
      · rw [fmSet, if_neg he, fmGet, fmGet]
        by_cases he' : e.1 = k'
        · rw [if_pos he', if_pos he']
        · rw [if_neg he', if_neg he', ih]

theorem fmGet_fmErase_self (m : FileMap) (k : PyPath) :
    fmGet (fmErase m k) k = none := by
  induction m with
  | nil => simp [fmErase, fmGet]
  | cons e rest ih =>
      by_cases h : e.1 = k
      · simpa [fmErase, List.filter, h] using ih
      · simpa [fmErase, List.filter, h, fmGet] using ih

theorem fmGet_fmErase_ne (m : FileMap) (k k' : PyPath) (h : k' ≠ k) :
    fmGet (fmErase m k) k' = fmGet m k' := by
  induction m with
  | nil => simp [fmErase, fmGet]
  | cons e rest ih =>
      by_cases he : e.1 = k
      · have hne : ¬ e.1 = k' := by rw [he]; exact Ne.symm h
        rw [fmErase, List.filter_cons, show (!decide (e.1 = k)) = false by simp [he],
          if_neg (by simp)]
        rw [show List.filter (fun e => !decide (e.1 = k)) rest = fmErase rest k from rfl,
          ih]
        rw [show fmGet (e :: rest) k' = if e.1 = k' then some e.2 else fmGet rest k'
            from rfl, if_neg hne]
      · rw [fmErase, List.filter_cons, show (!decide (e.1 = k)) = true by simp [he],
          if_pos rfl]
        rw [show fmGet (e :: List.filter (fun x => !decide (x.1 = k)) rest) k'
              = if e.1 = k' then some e.2 else
                  fmGet (List.filter (fun x => !decide (x.1 = k)) rest) k' from rfl]
        rw [show fmGet (e :: rest) k' = if e.1 = k' then some e.2 else fmGet rest k'
            from rfl]
        by_cases he' : e.1 = k'
        · rw [if_pos he', if_pos he']
        · rw [if_neg he', if_neg he']
          exact ih

/-! ## Event-queue and batch lemmas -/

theorem pmGet_queue_event_collapse (m : PendingMap) (src : PyPath)
    (d : Option PyPath) (hpend : pmGet m src = some ("deleted", d)) :
    pmGet (MDHandler.queue_event m "created" src none) src
      = some ("modified", none) := by
  unfold MDHandler.queue_event
  rw [hpend]
  simpa using pmGet_pmSet_self m src ("modified", none)

theorem queue_event_empty (et : String) (src : PyPath) (dest : Option PyPath) :
    MDHandler.queue_event [] et src dest = [(src, (et, dest))] := rfl

theorem queue_event_self_modified (src : PyPath) (v : Option PyPath) :
    MDHandler.queue_event [(src, ("modified", v))] "modified" src none
      = [(src, ("modified", none))] := by
  simp [MDHandler.queue_event, pmGet, pmSet]

theorem queueModifiedN_succ (p : PyPath) (n : Nat) :
    queueModifiedN p (n + 1) = [(p, ("modified", none))] := by
  induction n with
  | zero => rfl
  | succ n ih =>
      show MDHandler.queue_event (queueModifiedN p (n + 1)) "modified" p none = _
      rw [ih, queue_event_self_modified]

theorem countOp_append (o : MirrorOp) (a b : List MirrorOp) :
    countOp o (a ++ b) = countOp o a + countOp o b := by
  simp [countOp, List.countP_append]

theorem countOp_nil (o : MirrorOp) : countOp o [] = 0 := rfl

theorem countOp_cons (o x : MirrorOp) (l : List MirrorOp) :
    countOp o (x :: l) = countOp o l + (if x = o then 1 else 0) := by
  by_cases h : x = o <;> simp [countOp, List.countP_cons, h]

theorem countOp_rebuild_action_ops (watched : PyPath → Option String)
    (e : PyPath × (String × Option PyPath)) :
    countOp MirrorOp.rebuild (MDHandler.action_ops watched e) = 0 := by
  rcases e with ⟨src, et, dest⟩
  cases dest <;> simp [MDHandler.action_ops, countOp] <;> split_ifs <;>
    simp [List.countP_cons]

theorem countOp_rebuild_flatMap (watched : PyPath → Option String)
    (ev : PendingMap) :
    countOp MirrorOp.rebuild (ev.flatMap (MDHandler.action_ops watched)) = 0 := by
  induction ev with
  | nil => simp [countOp]
  | cons e rest ih =>
      rw [List.flatMap_cons, countOp_append, countOp_rebuild_action_ops, ih]

theorem countOp_copy_action_ops_le (watched : PyPath → Option String)
    (p : PyPath) (e : PyPath × (String × Option PyPath))
    (hmv : e.2.1 = "moved" → e.2.2 ≠ some p) :
    countOp (MirrorOp.copy p) (MDHandler.action_ops watched e)
      ≤ (if e.1 = p then 1 else 0) := by
  rcases e with ⟨src, et, dest⟩
  cases dest with
  | none =>
      simp only [MDHandler.action_ops]
      by_cases h1 : et = "deleted"
      · rw [if_pos h1]
        simp [countOp_cons, countOp_nil]
      · rw [if_neg h1]
        by_cases h2 : src = p <;> simp [countOp_cons, countOp_nil, h2]
  | some dst =>
      simp only [ne_eq, Option.some.injEq] at hmv
      simp only [MDHandler.action_ops]
      by_cases h1 : et = "deleted"
      · rw [if_pos h1]
        simp [countOp_cons, countOp_nil]
      · rw [if_neg h1]
        by_cases h2 : et = "moved"
        · rw [if_pos h2]
          have hne : ¬ dst = p := hmv h2
          cases hw : (watched dst).isSome <;>
            simp [hw, countOp_cons, countOp_nil, countOp_append, hne]
        · rw [if_neg h2]
          by_cases h3 : src = p <;> simp [countOp_cons, countOp_nil, h3]

theorem countOp_copy_flatMap_zero (watched : PyPath → Option String)
    (p : PyPath) (ev : PendingMap)
    (hk : ∀ e ∈ ev, e.1 ≠ p)
    (hmv : ∀ e ∈ ev, e.2.1 = "moved" → e.2.2 ≠ some p) :
    countOp (MirrorOp.copy p) (ev.flatMap (MDHandler.action_ops watched)) = 0 := by
  induction ev with
  | nil => simp [countOp]
  | cons e rest ih =>
      rw [List.flatMap_cons, countOp_append]
      have h1 := countOp_copy_action_ops_le watched p e
        (hmv e (by simp))
      rw [if_neg (hk e (by simp))] at h1
      have h2 := ih (fun e' he' => hk e' (by simp [he']))
        (fun e' he' => hmv e' (by simp [he']))
      omega

theorem countOp_copy_flatMap_le_one (watched : PyPath → Option String)
    (p : PyPath) (ev : PendingMap) (hwf : pmWF ev)
    (hmv : ∀ e ∈ ev, e.2.1 = "moved" → e.2.2 ≠ some p) :
    countOp (MirrorOp.copy p) (ev.flatMap (MDHandler.action_ops watched)) ≤ 1 := by
  induction ev with
  | nil => simp [countOp]
  | cons e rest ih =>
      rw [List.flatMap_cons, countOp_append]
      have hwf' : pmWF rest := (List.nodup_cons.mp hwf).2
      have hbound := countOp_copy_action_ops_le watched p e (hmv e (by simp))
      by_cases hkey : e.1 = p
      · have hnk : ∀ e' ∈ rest, e'.1 ≠ p := by
          intro e' he' hc
          have : e.1 ∈ pmKeys rest := by
            rw [hkey, ← hc]
            exact List.mem_map_of_mem (·.1) he'
          exact (List.nodup_cons.mp hwf).1 this
        have hz := countOp_copy_flatMap_zero watched p rest hnk
          (fun e' he' => hmv e' (by simp [he']))
        rw [if_pos hkey] at hbound
        omega
      · have h2 := ih hwf' (fun e' he' => hmv e' (by simp [he']))
        rw [if_neg hkey] at hbound
        omega

/-! ## Copier and mirror-application lemmas -/

theorem copyAttempts_true_ex (env : CopyEnv) :
    ∀ (fuel i : Nat), copyAttempts env fuel i = true →
      ∃ j, env.srcExists j = IOOutcome.ok true ∧ env.stable j = true
        ∧ env.copy2 j = IOOutcome.ok () := by
  intro fuel
  induction fuel with
  | zero => intro i h; simp [copyAttempts] at h
  | succ fuel ih =>
      intro i h
      rw [copyAttempts] at h
      cases hse : env.srcExists i with
      | raised =>
          rw [hse] at h
          exact ih (i + 1) h
      | ok b =>
          rw [hse] at h
          cases b with
          | false => simp at h
          | true =>
              by_cases hs : env.stable i
              · rw [if_neg (by simp [hs])] at h
                cases hc : env.copy2 i with
                | ok u => exact ⟨i, hse, hs, by rw [hc]⟩
                | raised =>
                    rw [hc] at h
                    exact ih (i + 1) h
              · rw [if_pos (by simp [Bool.not_eq_true] at hs ⊢; exact hs)] at h
                exact ih (i + 1) h

theorem queue_event_fresh (m : PendingMap) (et : String) (src : PyPath)
    (dest : Option PyPath) (h : pmGet m src = none) :
    MDHandler.queue_event m et src dest = pmSet m src (et, dest) := by
  rw [MDHandler.queue_event, h]

theorem on_moved_both_md (cfg : HandlerCfg) (m : PendingMap) (src dest : PyPath)
    (hs : is_md_path src = true) (hd : is_md_path dest = true) :
    MDHandler.on_moved cfg m src dest
      = MDHandler.queue_event m "moved" src (some dest) := by
  rw [MDHandler.on_moved]
  simp [hs, hd]

theorem on_moved_dest_md (cfg : HandlerCfg) (m : PendingMap) (src dest : PyPath)
    (hs : is_md_path src = false) (hd : is_md_path dest = true) :
    MDHandler.on_moved cfg m src dest
      = if MDHandler.should_handle cfg dest then
          MDHandler.queue_event m "created" dest none
        else m := by
  rw [MDHandler.on_moved]
  simp [hs, hd]

theorem on_moved_src_md (cfg : HandlerCfg) (m : PendingMap) (src dest : PyPath)
    (hs : is_md_path src = true) (hd : is_md_path dest = false) :
    MDHandler.on_moved cfg m src dest
      = if (getRelPath cfg.root src).isSome then
          MDHandler.queue_event m "deleted" src none
        else m := by
  rw [MDHandler.on_moved]
  simp [hs, hd]

theorem applyOp_copy_ok (root src rel : PyPath) (c : String)
    (watched : PyPath → Option String) (copyOk : PyPath → Bool)
    (mirror : FileMap) (hrel : getRelPath root src = some rel)
    (hw : watched src = some c) (hc : copyOk src = true) :
    applyOp root watched copyOk mirror (MirrorOp.copy src) = fmSet mirror rel c := by
  simp [applyOp, hrel, hw, hc]

/-! ## Sorting lemmas -/

theorem charListLe_total : ∀ (a b : List Char),
    charListLe a b = true ∨ charListLe b a = true
  | [], _ => Or.inl rfl
  | _ :: _, [] => Or.inr rfl
  | x :: as, y :: bs => by
      rw [charListLe, charListLe]
      rcases lt_trichotomy x y with h | h | h
      · exact Or.inl (by rw [if_pos h])
      · subst h
        simp only [lt_irrefl, if_false]
        exact charListLe_total as bs
      · exact Or.inr (by rw [if_pos h])

theorem charListLe_trans : ∀ (a b c : List Char), charListLe a b = true →
    charListLe b c = true → charListLe a c = true
  | [], _, _, _, _ => rfl
  | _ :: _, [], _, h1, _ => by simp [charListLe] at h1
  | _ :: _, _ :: _, [], _, h2 => by simp [charListLe] at h2
  | x :: as, y :: bs, z :: cs, h1, h2 => by
      rw [charListLe] at h1 h2 ⊢
      rcases lt_trichotomy x y with hxy | hxy | hxy
      · rcases lt_trichotomy y z with hyz | hyz | hyz
        · rw [if_pos (lt_trans hxy hyz)]
        · subst hyz; rw [if_pos hxy]
        · rw [if_neg (lt_asymm hyz), if_pos hyz] at h2
          simp at h2
      · subst hxy
        simp only [lt_irrefl, if_false] at h1
        rcases lt_trichotomy x z with hxz | hxz | hxz
        · rw [if_pos hxz]
        · subst hxz
          simp only [lt_irrefl, if_false] at h2 ⊢
          exact charListLe_trans as bs cs h1 h2
        · rw [if_neg (lt_asymm hxz), if_pos hxz] at h2
          simp at h2
      · rw [if_neg (lt_asymm hxy), if_pos hxy] at h1
        simp at h1

theorem strLe_total (a b : String) : strLe a b = true ∨ strLe b a = true :=
  charListLe_total a.data b.data

theorem strLe_trans {a b c : String} (h1 : strLe a b = true)
    (h2 : strLe b c = true) : strLe a c = true :=
  charListLe_trans a.data b.data c.data h1 h2

theorem perm_insertStr (x : String) (l : List String) :
    (insertStr x l).Perm (x :: l) := by
  induction l with
  | nil => exact List.Perm.refl _
  | cons y ys ih =>
      rw [insertStr]
      by_cases h : strLe x y = true
      · rw [if_pos h]
      · rw [if_neg h]
        exact (ih.cons y).trans (List.Perm.swap x y ys)

theorem mem_insertStr (x : String) (l : List String) (a : String) :
    a ∈ insertStr x l ↔ a ∈ x :: l := (perm_insertStr x l).mem_iff

theorem sorted_insertStr (x : String) (l : List String) (h : SortedStr l) :
    SortedStr (insertStr x l) := by
  induction l with
  | nil => simp [insertStr, SortedStr]
  | cons y ys ih =>
      rw [SortedStr, List.pairwise_cons] at h
      obtain ⟨hy, hys⟩ := h
      rw [insertStr]
      by_cases hxy : strLe x y = true
      · rw [if_pos hxy]
        rw [SortedStr, List.pairwise_cons]
        refine ⟨?_, List.Pairwise.cons hy hys⟩
        intro b hb
        rcases List.mem_cons.mp hb with rfl | hb
        · exact hxy
        · exact strLe_trans hxy (hy b hb)
      · rw [if_neg hxy]
        have hyx : strLe y x = true := (strLe_total x y).resolve_left hxy
        rw [SortedStr, List.pairwise_cons]
        refine ⟨?_, ih hys⟩
        intro b hb
        rcases List.mem_cons.mp ((mem_insertStr x ys b).mp hb) with rfl | hb'
        · exact hyx
        · exact hy b hb'

theorem sortStrings_sorted (l : List String) : SortedStr (sortStrings l) := by
  induction l with
  | nil => simp [sortStrings, SortedStr]
  | cons x xs ih =>
      rw [sortStrings]
      exact sorted_insertStr x _ ih

theorem sortStrings_perm (l : List String) : (sortStrings l).Perm l := by
  induction l with
  | nil => exact List.Perm.refl _
  | cons x xs ih =>
      rw [sortStrings]
      exact (perm_insertStr x _).trans (ih.cons x)

theorem mem_sortStrings {l : List String} {a : String} :
    a ∈ sortStrings l ↔ a ∈ l := (sortStrings_perm l).mem_iff

theorem sortStrings_nodup {l : List String} (h : l.Nodup) :
    (sortStrings l).Nodup := (sortStrings_perm l).nodup_iff.mpr h

/-! ## POSIX rendering is injective on valid component lists -/

theorem str_ext {a b : String} (h : a.data = b.data) : a = b := by
  cases a
  cases b
  exact congrArg String.mk h

theorem validName_ne_nil {n : String} (h : validName n = true) : n.data ≠ [] := by
  rw [validName, Bool.and_eq_true] at h
  intro hd
  have : n = "" := str_ext hd
  simp [this] at h

theorem validName_no_slash {n : String} (h : validName n = true) :
    '/' ∉ n.data := by
  rw [validName, Bool.and_eq_true] at h
  have h2 := h.2
  simpa using h2

theorem noSlashSplit : ∀ (l1 l2 r1 r2 : List Char), '/' ∉ l1 → '/' ∉ l2 →
    l1 ++ '/' :: r1 = l2 ++ '/' :: r2 → l1 = l2 ∧ r1 = r2
  | [], [], r1, r2, _, _, h => ⟨rfl, by simpa using h⟩
  | [], c :: l2, r1, r2, _, h2, h => by
      simp only [List.nil_append, List.cons_append, List.cons.injEq] at h
      refine absurd ?_ h2
      rw [← h.1]
      exact List.mem_cons_self _ _
  | c :: l1, [], r1, r2, h1, _, h => by
      simp only [List.nil_append, List.cons_append, List.cons.injEq] at h
      refine absurd ?_ h1
      rw [h.1]
      exact List.mem_cons_self _ _
  | c1 :: l1, c2 :: l2, r1, r2, h1, h2, h => by
      simp only [List.cons_append, List.cons.injEq] at h
      obtain ⟨hc, ht⟩ := h
      have hrec := noSlashSplit l1 l2 r1 r2
        (fun hm => h1 (List.mem_cons_of_mem _ hm))
        (fun hm => h2 (List.mem_cons_of_mem _ hm)) ht
      exact ⟨by rw [hc, hrec.1], hrec.2⟩

theorem posix_cons_data (x y : String) :
    (x ++ "/" ++ y).data = x.data ++ '/' :: y.data := by
  show (x.data ++ ("/" : String).data) ++ y.data = x.data ++ '/' :: y.data
  rw [List.append_assoc]
  rfl

theorem posixStr_one (x : String) : posixStr [x] = x := rfl

theorem posixStr_cons_cons (x y : String) (ys : List String) :
    posixStr (x :: y :: ys) = x ++ "/" ++ posixStr (y :: ys) := rfl

theorem posixStr_inj : ∀ (p q : List String), p ≠ [] → q ≠ [] →
    (∀ c ∈ p, validName c = true) → (∀ c ∈ q, validName c = true) →
    posixStr p = posixStr q → p = q
  | [], _, hp, _, _, _, _ => absurd rfl hp
  | _ :: _, [], _, hq, _, _, _ => absurd rfl hq
  | [x], [y], _, _, _, _, h => by
      rw [posixStr_one, posixStr_one] at h
      rw [h]
  | [x], y1 :: y2 :: ys, _, _, hvp, hvq, h => by
      rw [posixStr_one, posixStr_cons_cons] at h
      have hx : '/' ∈ x.data := by
        rw [h, posix_cons_data]
        exact List.mem_append_right _ (List.mem_cons_self _ _)
      exact absurd hx (validName_no_slash (hvp x (List.mem_cons_self _ _)))
  | x1 :: x2 :: xs, [y], _, _, hvp, hvq, h => by
      rw [posixStr_one, posixStr_cons_cons] at h
      have hy : '/' ∈ y.data := by
        rw [← h, posix_cons_data]
        exact List.mem_append_right _ (List.mem_cons_self _ _)
      exact absurd hy (validName_no_slash (hvq y (List.mem_cons_self _ _)))
  | x1 :: x2 :: xs, y1 :: y2 :: ys, _, _, hvp, hvq, h => by
      rw [posixStr_cons_cons, posixStr_cons_cons] at h
      have hdata : x1.data ++ '/' :: (posixStr (x2 :: xs)).data
          = y1.data ++ '/' :: (posixStr (y2 :: ys)).data := by
        rw [← posix_cons_data, ← posix_cons_data, h]
      have hsplit := noSlashSplit _ _ _ _
        (validName_no_slash (hvp x1 (List.mem_cons_self _ _)))
        (validName_no_slash (hvq y1 (List.mem_cons_self _ _))) hdata
      have h1 : x1 = y1 := str_ext hsplit.1
      have h2 : posixStr (x2 :: xs) = posixStr (y2 :: ys) := str_ext hsplit.2
      have hrec := posixStr_inj (x2 :: xs) (y2 :: ys) (by simp) (by simp)
        (fun c hc => hvp c (List.mem_cons_of_mem _ hc))
        (fun c hc => hvq c (List.mem_cons_of_mem _ hc)) h2
      rw [h1, hrec]

/-! ## Tree-structure lemmas -/

theorem walkSubdirs_cons_dir (root : PyPath) (m : Option Nat)
    (ex : Option PyPath) (n : String) (e0 rest : FSEntries)
    (relDir : List String) :
    walkSubdirs root m ex (FSEntries.cons n (FSTree.dir e0) rest) relDir
      = (if should_include_dir n then walkVisit root m ex e0 (relDir ++ [n])
         else [])
        ++ walkSubdirs root m ex rest relDir := rfl

theorem filePaths_ne_nil : ∀ (e : FSEntries), ∀ q ∈ e.filePaths, q ≠ []
  | FSEntries.nil => by simp [FSEntries.filePaths]
  | FSEntries.cons n FSTree.file rest => by
      intro q hq
      rw [FSEntries.filePaths] at hq
      rcases List.mem_cons.mp hq with rfl | hq
      · simp
      · exact filePaths_ne_nil rest q hq
  | FSEntries.cons n (FSTree.dir e0) rest => by
      intro q hq
      rw [FSEntries.filePaths] at hq
      rcases List.mem_append.mp hq with hq | hq
      · obtain ⟨q0, _, rfl⟩ := List.mem_map.mp hq
        simp
      · exact filePaths_ne_nil rest q hq

theorem filePaths_valid : ∀ (e : FSEntries), e.wfB = true →
    ∀ q ∈ e.filePaths, ∀ c ∈ q, validName c = true
  | FSEntries.nil, _ => by simp [FSEntries.filePaths]
  | FSEntries.cons n FSTree.file rest, h => by
      rw [FSEntries.wfB] at h
      simp only [Bool.and_eq_true] at h
      obtain ⟨⟨⟨hv, _⟩, _⟩, hrest⟩ := h
      intro q hq c hc
      rw [FSEntries.filePaths] at hq
      rcases List.mem_cons.mp hq with rfl | hq
      · rw [List.mem_singleton.mp hc]
        exact hv
      · exact filePaths_valid rest hrest q hq c hc
  | FSEntries.cons n (FSTree.dir e0) rest, h => by
      rw [FSEntries.wfB] at h
      simp only [Bool.and_eq_true] at h
      obtain ⟨⟨⟨hv, _⟩, he0⟩, hrest⟩ := h
      rw [FSTree.wfB] at he0
      intro q hq c hc
      rw [FSEntries.filePaths] at hq
      rcases List.mem_append.mp hq with hq | hq
      · obtain ⟨q0, hq0, rfl⟩ := List.mem_map.mp hq
        rcases List.mem_cons.mp hc with rfl | hc
        · exact hv
        · exact filePaths_valid e0 he0 q0 hq0 c hc
      · exact filePaths_valid rest hrest q hq c hc

theorem subdirsOf_mem_names : ∀ (e : FSEntries) (p : String) (e' : FSEntries),
    (p, e') ∈ e.subdirsOf → p ∈ e.names
  | FSEntries.nil, p, e' => by simp [FSEntries.subdirsOf]
  | FSEntries.cons n FSTree.file rest, p, e' => by
      intro h
      rw [FSEntries.subdirsOf] at h
      rw [FSEntries.names]
      exact List.mem_cons_of_mem _ (subdirsOf_mem_names rest p e' h)
  | FSEntries.cons n (FSTree.dir e0) rest, p, e' => by
      intro h
      rw [FSEntries.subdirsOf] at h
      rw [FSEntries.names]
      rcases List.mem_cons.mp h with heq | h
      · rw [Prod.mk.injEq] at heq
        exact List.mem_cons.mpr (Or.inl heq.1)
      · exact List.mem_cons_of_mem _ (subdirsOf_mem_names rest p e' h)

theorem fileNames_sublist : ∀ (e : FSEntries), e.fileNames.Sublist e.names
  | FSEntries.nil => List.Sublist.refl _
  | FSEntries.cons n FSTree.file rest => by
      rw [FSEntries.fileNames, FSEntries.names]
      exact (fileNames_sublist rest).cons₂ n
  | FSEntries.cons n (FSTree.dir e0) rest => by
      rw [FSEntries.fileNames, FSEntries.names]
      exact (fileNames_sublist rest).cons n

theorem names_nodup : ∀ (e : FSEntries), e.wfB = true → e.names.Nodup
  | FSEntries.nil, _ => by simp [FSEntries.names]
  | FSEntries.cons n t rest, h => by
      rw [FSEntries.wfB] at h
      simp only [Bool.and_eq_true] at h
      obtain ⟨⟨⟨_, hnc⟩, _⟩, hrest⟩ := h
      rw [FSEntries.names]
      rw [List.nodup_cons]
      refine ⟨?_, names_nodup rest hrest⟩
      intro hm
      rw [Bool.not_eq_true'] at hnc
      simp only [List.contains_eq_any_beq] at hnc
      have : rest.names.any (fun x => n == x) = true :=
        List.any_eq_true.mpr ⟨n, hm, by simp⟩
      rw [this] at hnc
      exact Bool.noConfusion hnc

theorem fileNames_nodup (e : FSEntries) (h : e.wfB = true) :
    e.fileNames.Nodup :=
  (names_nodup e h).sublist (fileNames_sublist e)

theorem singleton_mem_filePaths : ∀ (e : FSEntries) (n : String),
    [n] ∈ e.filePaths ↔ n ∈ e.fileNames
  | FSEntries.nil, n => by simp [FSEntries.filePaths, FSEntries.fileNames]
  | FSEntries.cons m FSTree.file rest, n => by
      rw [FSEntries.filePaths, FSEntries.fileNames]
      rw [List.mem_cons, List.mem_cons, singleton_mem_filePaths rest n]
      constructor
      · rintro (h | h)
        · exact Or.inl (by simpa using h)
        · exact Or.inr h
      · rintro (rfl | h)
        · exact Or.inl rfl
        · exact Or.inr h
  | FSEntries.cons m (FSTree.dir e0) rest, n => by
      rw [FSEntries.filePaths, FSEntries.fileNames]
      rw [List.mem_append, singleton_mem_filePaths rest n]
      constructor
      · rintro (h | h)
        · obtain ⟨q0, hq0, heq⟩ := List.mem_map.mp h
          injection heq with _ h2
          exact absurd h2 (filePaths_ne_nil e0 q0 hq0)
        · exact h
      · intro h
        exact Or.inr h

theorem cons_mem_filePaths : ∀ (e : FSEntries) (n : String)
    (q' : List String), q' ≠ [] →
    ((n :: q') ∈ e.filePaths ↔
      ∃ e', (n, e') ∈ e.subdirsOf ∧ q' ∈ e'.filePaths)
  | FSEntries.nil, n, q', _ => by simp [FSEntries.filePaths, FSEntries.subdirsOf]
  | FSEntries.cons m FSTree.file rest, n, q', hq' => by
      rw [FSEntries.filePaths, FSEntries.subdirsOf]
      rw [List.mem_cons, cons_mem_filePaths rest n q' hq']
      constructor
      · rintro (h | h)
        · injection h with _ h2
          exact absurd h2 hq'
        · exact h
      · intro h
        exact Or.inr h
  | FSEntries.cons m (FSTree.dir e0) rest, n, q', hq' => by
      rw [FSEntries.filePaths, FSEntries.subdirsOf]
      rw [List.mem_append, cons_mem_filePaths rest n q' hq']
      constructor
      · rintro (h | h)
        · obtain ⟨q0, hq0, heq⟩ := List.mem_map.mp h
          injection heq with h1 h2
          exact ⟨e0, List.mem_cons.mpr (Or.inl (by rw [h1])), by rw [← h2]; exact hq0⟩
        · obtain ⟨e', he', hq⟩ := h
          exact ⟨e', List.mem_cons_of_mem _ he', hq⟩
      · rintro ⟨e', he', hq⟩
        rcases List.mem_cons.mp he' with heq | he'
        · rw [Prod.mk.injEq] at heq
          obtain ⟨h1, h2⟩ := heq
          refine Or.inl (List.mem_map.mpr ⟨q', ?_, by rw [h1]⟩)
          rw [← h2]
          exact hq
        · exact Or.inr ⟨e', he', hq⟩

/-! ## Walk membership -/

theorem excludedDir_append (ex : Option PyPath) (p t : PyPath)
    (h : excludedDir ex p = true) : excludedDir ex (p ++ t) = true := by
  cases ex with
  | none => exact absurd h (by simp [excludedDir])
  | some e =>
      rw [excludedDir] at h ⊢
      rw [List.isPrefixOf_iff_prefix] at h ⊢
      exact h.trans (List.prefix_append p t)

theorem depthStop_mono (m : Option Nat) {d1 d2 : Nat} (hle : d1 ≤ d2)
    (h : depthStop m d1 = true) : depthStop m d2 = true := by
  cases m with
  | none => exact absurd h (by simp [depthStop])
  | some md =>
      rw [depthStop, decide_eq_true_eq] at h ⊢
      omega

theorem dropLast_cons₂ {α : Type} (a b : α) (l : List α) :
    (a :: b :: l).dropLast = a :: (b :: l).dropLast := rfl

theorem walkCond_cons (root : PyPath) (m : Option Nat) (ex : Option PyPath)
    (relDir : List String) (n : String) (q' : List String) (hq' : q' ≠ []) :
    walkCond root m ex relDir (n :: q') = true ↔
      should_include_dir n = true
        ∧ walkCond root m ex (relDir ++ [n]) q' = true := by
  obtain ⟨a, l, rfl⟩ := List.exists_cons_of_ne_nil hq'
  rw [walkCond, walkCond]
  rw [List.getLast?_cons_cons, dropLast_cons₂, List.all_cons]
  have hsip : relDir ++ n :: a :: l = (relDir ++ [n]) ++ a :: l :=
    List.append_cons relDir n (a :: l)
  rw [hsip]
  have hlen : relDir.length + (n :: (a :: l).dropLast).length
      = (relDir ++ [n]).length + (a :: l).dropLast.length := by
    simp
    omega
  rw [hlen]
  have hexc : root ++ (relDir ++ n :: (a :: l).dropLast)
      = root ++ ((relDir ++ [n]) ++ (a :: l).dropLast) := by
    rw [List.append_cons relDir n ((a :: l).dropLast)]
  rw [hexc]
  simp only [Bool.and_eq_true]
  tauto

theorem mem_walkSubdirs (root : PyPath) (m : Option Nat) (ex : Option PyPath) :
    ∀ (e : FSEntries) (relDir rel : List String),
      rel ∈ walkSubdirs root m ex e relDir ↔
        ∃ p e', (p, e') ∈ e.subdirsOf ∧ should_include_dir p = true
          ∧ rel ∈ walkVisit root m ex e' (relDir ++ [p])
  | FSEntries.nil, relDir, rel => by simp [walkSubdirs, FSEntries.subdirsOf]
  | FSEntries.cons n FSTree.file rest, relDir, rel => by
      rw [show walkSubdirs root m ex (FSEntries.cons n FSTree.file rest) relDir
          = walkSubdirs root m ex rest relDir from rfl, FSEntries.subdirsOf]
      exact mem_walkSubdirs root m ex rest relDir rel
  | FSEntries.cons n (FSTree.dir e0) rest, relDir, rel => by
      rw [walkSubdirs_cons_dir, FSEntries.subdirsOf, List.mem_append]
      constructor
      · rintro (h | h)
        · by_cases hs : should_include_dir n = true
          · rw [if_pos hs] at h
            exact ⟨n, e0, List.mem_cons_self _ _, hs, h⟩
          · rw [if_neg hs] at h
            simp at h
        · obtain ⟨p, e', hm, hs, hv⟩ :=
            (mem_walkSubdirs root m ex rest relDir rel).mp h
          exact ⟨p, e', List.mem_cons_of_mem _ hm, hs, hv⟩
      · rintro ⟨p, e', hm, hs, hv⟩
        rcases List.mem_cons.mp hm with heq | hm
        · injection heq with h1 h2
          subst h1
          subst h2
          left
          rw [if_pos hs]
          exact hv
        · right
          exact (mem_walkSubdirs root m ex rest relDir rel).mpr ⟨p, e', hm, hs, hv⟩

theorem sizeOf_subdirsOf : ∀ (e : FSEntries) (p : String) (e' : FSEntries),
    (p, e') ∈ e.subdirsOf → sizeOf e' < sizeOf e
  | FSEntries.nil, p, e' => by simp [FSEntries.subdirsOf]
  | FSEntries.cons n FSTree.file rest, p, e' => by
      intro h
      rw [FSEntries.subdirsOf] at h
      have hrec := sizeOf_subdirsOf rest p e' h
      simp only [FSEntries.cons.sizeOf_spec]
      omega
  | FSEntries.cons n (FSTree.dir e0) rest, p, e' => by
      intro h
      rw [FSEntries.subdirsOf] at h
      rcases List.mem_cons.mp h with heq | h
      · injection heq with h1 h2
        subst h2
        simp only [FSEntries.cons.sizeOf_spec, FSTree.dir.sizeOf_spec]
        omega
      · have hrec := sizeOf_subdirsOf rest p e' h
        simp only [FSEntries.cons.sizeOf_spec]
        omega

theorem mem_walkVisit (root : PyPath) (m : Option Nat) (ex : Option PyPath)
    (e : FSEntries) (relDir rel : List String) :
    rel ∈ walkVisit root m ex e relDir ↔
      ∃ q, q ∈ e.filePaths ∧ rel = relDir ++ q
        ∧ walkCond root m ex relDir q = true := by
  rw [walkVisit]
  by_cases hex : excludedDir ex (root ++ relDir) = true
  · rw [if_pos hex]
    simp only [List.not_mem_nil, false_iff, not_exists]
    rintro q ⟨hq, heq, hcond⟩
    rw [walkCond] at hcond
    simp only [Bool.and_eq_true] at hcond
    have hE := hcond.2
    have hT : excludedDir ex (root ++ (relDir ++ q.dropLast)) = true := by
      rw [← List.append_assoc]
      exact excludedDir_append ex _ _ hex
    rw [hT] at hE
    simp at hE
  · rw [if_neg hex]
    by_cases hdep : depthStop m relDir.length = true
    · rw [if_pos hdep]
      simp only [List.not_mem_nil, false_iff, not_exists]
      rintro q ⟨hq, heq, hcond⟩
      rw [walkCond] at hcond
      simp only [Bool.and_eq_true] at hcond
      have hD := hcond.1.2
      have hT : depthStop m (relDir.length + q.dropLast.length) = true :=
        depthStop_mono m (Nat.le_add_right _ _) hdep
      rw [hT] at hD
      simp at hD
    · rw [if_neg hdep]
      have hexf : excludedDir ex (root ++ relDir) = false :=
        Bool.eq_false_iff.mpr hex
      have hdepf : depthStop m relDir.length = false :=
        Bool.eq_false_iff.mpr hdep
      rw [List.mem_append]
      constructor
      · rintro (hf | hs)
        · rw [walkFiles, List.mem_filterMap] at hf
          obtain ⟨n, hn, hcond⟩ := hf
          by_cases hc : (is_md_file n && should_include_path (relDir ++ [n])) = true
          · rw [if_pos hc] at hcond
            injection hcond with hrel
            rw [Bool.and_eq_true] at hc
            refine ⟨[n],
              (singleton_mem_filePaths e n).mpr (mem_sortStrings.mp hn),
              hrel.symm, ?_⟩
            rw [walkCond]
            simp only [List.getLast?_singleton, List.dropLast_single,
              List.all_nil, List.length_nil, Nat.add_zero, List.append_nil,
              hc.1, hc.2, hexf, hdepf, Bool.and_eq_true]
            simp
          · rw [if_neg hc] at hcond
            exact absurd hcond (by simp)
        · rw [mem_walkSubdirs] at hs
          obtain ⟨p, e', hm, hsid, hv⟩ := hs
          rw [mem_walkVisit root m ex e' (relDir ++ [p]) rel] at hv
          obtain ⟨q', hq', hrel, hcond⟩ := hv
          have hq'ne : q' ≠ [] := filePaths_ne_nil e' q' hq'
          refine ⟨p :: q',
            (cons_mem_filePaths e p q' hq'ne).mpr ⟨e', hm, hq'⟩, ?_, ?_⟩
          · rw [hrel, List.append_cons relDir p q']
          · exact (walkCond_cons root m ex relDir p q' hq'ne).mpr ⟨hsid, hcond⟩
      · rintro ⟨q, hq, hrel, hcond⟩
        cases q with
        | nil => exact absurd rfl (filePaths_ne_nil e [] hq)
        | cons p q' =>
            by_cases hq' : q' = []
            · subst hq'
              left
              rw [walkFiles, List.mem_filterMap]
              refine ⟨p,
                mem_sortStrings.mpr ((singleton_mem_filePaths e p).mp hq), ?_⟩
              rw [walkCond] at hcond
              simp only [List.getLast?_singleton, List.dropLast_single,
                List.all_nil, Bool.and_eq_true] at hcond
              obtain ⟨⟨⟨⟨hmd, _⟩, hsip⟩, _⟩, _⟩ := hcond
              rw [if_pos (by rw [Bool.and_eq_true]; exact ⟨hmd, hsip⟩)]
              rw [hrel]
            · right
              rw [mem_walkSubdirs]
              obtain ⟨e', hm, hq'p⟩ := (cons_mem_filePaths e p q' hq').mp hq
              obtain ⟨hsid, hcond'⟩ :=
                (walkCond_cons root m ex relDir p q' hq').mp hcond
              refine ⟨p, e', hm, hsid, ?_⟩
              rw [mem_walkVisit root m ex e' (relDir ++ [p]) rel]
              exact ⟨q', hq'p, by rw [hrel, List.append_cons relDir p q'],
                hcond'⟩
termination_by sizeOf e
decreasing_by
  all_goals exact sizeOf_subdirsOf _ _ _ (by assumption)

/-! ## The walk yields no duplicates -/

theorem contains_false_not_mem {l : List String} {n : String}
    (h : (!(l.contains n)) = true) : n ∉ l := by
  intro hm
  rw [Bool.not_eq_true'] at h
  simp only [List.contains_eq_any_beq] at h
  have hany : l.any (fun x => n == x) = true :=
    List.any_eq_true.mpr ⟨n, hm, by simp⟩
  rw [hany] at h
  exact Bool.noConfusion h

theorem walkFiles_nodup (e : FSEntries) (relDir : List String)
    (h : e.wfB = true) : (walkFiles e relDir).Nodup := by
  rw [walkFiles]
  apply List.Nodup.filterMap
  · intro a a' b hb hb'
    by_cases hc : (is_md_file a && should_include_path (relDir ++ [a])) = true
    · rw [if_pos hc] at hb
      by_cases hc' : (is_md_file a' && should_include_path (relDir ++ [a'])) = true
      · rw [if_pos hc'] at hb'
        simp only [Option.mem_def, Option.some.injEq] at hb hb'
        have := List.append_cancel_left (hb.trans hb'.symm)
        injection this
      · rw [if_neg hc'] at hb'
        exact absurd hb' (by simp)
    · rw [if_neg hc] at hb
      exact absurd hb (by simp)
  · exact sortStrings_nodup (fileNames_nodup e h)

theorem mem_walkFiles_shape (e : FSEntries) (relDir rel : List String)
    (h : rel ∈ walkFiles e relDir) : ∃ n, rel = relDir ++ [n] := by
  rw [walkFiles, List.mem_filterMap] at h
  obtain ⟨n, _, hc⟩ := h
  by_cases hcc : (is_md_file n && should_include_path (relDir ++ [n])) = true
  · rw [if_pos hcc] at hc
    injection hc with hc
    exact ⟨n, hc.symm⟩
  · rw [if_neg hcc] at hc
    exact absurd hc (by simp)

theorem mem_walkSubdirs_shape (root : PyPath) (m : Option Nat)
    (ex : Option PyPath) (e : FSEntries) (relDir rel : List String)
    (h : rel ∈ walkSubdirs root m ex e relDir) :
    ∃ p q, rel = relDir ++ p :: q ∧ (∃ e', (p, e') ∈ e.subdirsOf) ∧ q ≠ [] := by
  rw [mem_walkSubdirs] at h
  obtain ⟨p, e', hm, _, hv⟩ := h
  rw [mem_walkVisit] at hv
  obtain ⟨q', hq', hrel, _⟩ := hv
  exact ⟨p, q', hrel.trans (List.append_cons relDir p q').symm, ⟨e', hm⟩,
    filePaths_ne_nil e' q' hq'⟩

theorem walkFiles_disjoint_walkSubdirs (root : PyPath) (m : Option Nat)
    (ex : Option PyPath) (e : FSEntries) (relDir : List String) :
    (walkFiles e relDir).Disjoint (walkSubdirs root m ex e relDir) := by
  intro rel h1 h2
  obtain ⟨n, hn⟩ := mem_walkFiles_shape e relDir rel h1
  obtain ⟨p, q, hpq, _, hqne⟩ := mem_walkSubdirs_shape root m ex e relDir rel h2
  rw [hn] at hpq
  have hcanc := List.append_cancel_left hpq
  injection hcanc with _ h3
  exact hqne h3.symm

theorem walkSubdirs_nodup (root : PyPath) (m : Option Nat)
    (ex : Option PyPath) : ∀ (e : FSEntries) (relDir : List String),
    e.wfB = true → (walkSubdirs root m ex e relDir).Nodup
  | FSEntries.nil, relDir, _ => by simp [walkSubdirs]
  | FSEntries.cons n FSTree.file rest, relDir, h => by
      rw [show walkSubdirs root m ex (FSEntries.cons n FSTree.file rest) relDir
          = walkSubdirs root m ex rest relDir from rfl]
      rw [FSEntries.wfB] at h
      simp only [Bool.and_eq_true] at h
      exact walkSubdirs_nodup root m ex rest relDir h.2
  | FSEntries.cons n (FSTree.dir e0) rest, relDir, h => by
      rw [FSEntries.wfB] at h
      simp only [Bool.and_eq_true] at h
      obtain ⟨⟨⟨hv, hnc⟩, he0⟩, hrest⟩ := h
      rw [FSTree.wfB] at he0
      rw [walkSubdirs_cons_dir]
      apply List.Nodup.append
      · by_cases hs : should_include_dir n = true
        · rw [if_pos hs, walkVisit]
          by_cases h1 : excludedDir ex (root ++ (relDir ++ [n])) = true
          · rw [if_pos h1]
            exact List.nodup_nil
          · rw [if_neg h1]
            by_cases h2 : depthStop m (relDir ++ [n]).length = true
            · rw [if_pos h2]
              exact List.nodup_nil
            · rw [if_neg h2]
              exact List.Nodup.append (walkFiles_nodup e0 _ he0)
                (walkSubdirs_nodup root m ex e0 (relDir ++ [n]) he0)
                (walkFiles_disjoint_walkSubdirs root m ex e0 (relDir ++ [n]))
        · rw [if_neg hs]
          exact List.nodup_nil
      · exact walkSubdirs_nodup root m ex rest relDir hrest
      · intro rel hL hR
        by_cases hs : should_include_dir n = true
        case neg =>
          rw [if_neg hs] at hL
          simp at hL
        rw [if_pos hs] at hL
        rw [mem_walkVisit] at hL
        obtain ⟨q, hq, hrel, _⟩ := hL
        obtain ⟨p, q2, hpq, ⟨e'', hm''⟩, _⟩ :=
          mem_walkSubdirs_shape root m ex rest relDir rel hR
        have h3 : relDir ++ n :: q = relDir ++ p :: q2 :=
          (List.append_cons relDir n q).trans (hrel.symm.trans hpq)
        have h4 := List.append_cancel_left h3
        injection h4 with h5 _
        have hpn : p ∈ rest.names := subdirsOf_mem_names rest p e'' hm''
        rw [← h5] at hpn
        exact contains_false_not_mem hnc hpn

theorem walkVisit_nodup (root : PyPath) (m : Option Nat) (ex : Option PyPath)
    (e : FSEntries) (relDir : List String) (h : e.wfB = true) :
    (walkVisit root m ex e relDir).Nodup := by
  rw [walkVisit]
  by_cases h1 : excludedDir ex (root ++ relDir) = true
  · rw [if_pos h1]
    exact List.nodup_nil
  · rw [if_neg h1]
    by_cases h2 : depthStop m relDir.length = true
    · rw [if_pos h2]
      exact List.nodup_nil
    · rw [if_neg h2]
      exact List.Nodup.append (walkFiles_nodup e relDir h)
        (walkSubdirs_nodup root m ex e relDir h)
        (walkFiles_disjoint_walkSubdirs root m ex e relDir)

/-! ## The walk equals the spec-side tracked set -/

theorem sid_imp_vis (part : String) (h : should_include_dir part = true) :
    (!(startsWithStr part "." && !startsWithStr part ".claude")) = true := by
  rw [should_include_dir] at h
  by_cases h1 : SKIP_DIRS.contains part = true
  · rw [if_pos h1] at h
    exact Bool.noConfusion h
  · rw [if_neg h1] at h
    by_cases h2 : startsWithStr part ".claude" = true
    · simp [h2]
    · rw [if_neg h2] at h
      by_cases h3 : startsWithStr part "." = true
      · rw [if_pos h3] at h
        exact Bool.noConfusion h
      · simp [Bool.eq_false_iff.mpr h3]

theorem sip_of_all_sid (l : List String)
    (h : l.dropLast.all should_include_dir = true) :
    should_include_path l = true := by
  rw [should_include_path]
  rw [List.all_eq_true] at h ⊢
  intro part hp
  exact sid_imp_vis part (h part hp)

theorem walkCond_nil_left (root : PyPath) (m : Option Nat)
    (ex : Option PyPath) (q : List String) :
    walkCond root m ex [] q = true ↔ trackedSpec root m ex q = true := by
  rw [walkCond, trackedSpec]
  simp only [List.nil_append, List.length_nil, Nat.zero_add]
  simp only [Bool.and_eq_true]
  constructor
  · rintro ⟨⟨⟨⟨h1, h2⟩, _⟩, h4⟩, h5⟩
    exact ⟨⟨⟨h1, h2⟩, h4⟩, h5⟩
  · rintro ⟨⟨⟨h1, h2⟩, h4⟩, h5⟩
    exact ⟨⟨⟨⟨h1, h2⟩, sip_of_all_sid q h2⟩, h4⟩, h5⟩

theorem mem_walk_md_files (root : PyPath) (tree : FSEntries) (m : Option Nat)
    (ex : Option PyPath) (rel : List String) :
    rel ∈ walk_md_files root tree m ex ↔
      rel ∈ tree.filePaths ∧ trackedSpec root m ex rel = true := by
  rw [walk_md_files, mem_walkVisit]
  constructor
  · rintro ⟨q, hq, hrel, hcond⟩
    rw [List.nil_append] at hrel
    subst hrel
    exact ⟨hq, (walkCond_nil_left root m ex _).mp hcond⟩
  · rintro ⟨hq, hcond⟩
    exact ⟨rel, hq, (List.nil_append rel).symm,
      (walkCond_nil_left root m ex rel).mpr hcond⟩

theorem mem_build_index (root : PyPath) (tree : FSEntries) (m : Option Nat)
    (ex : Option PyPath) (s : String) :
    s ∈ build_index root tree m ex ↔
      ∃ rel, rel ∈ tree.filePaths ∧ trackedSpec root m ex rel = true
        ∧ s = posixStr rel := by
  rw [build_index, mem_sortStrings, List.mem_map]
  constructor
  · rintro ⟨rel, hrel, rfl⟩
    obtain ⟨h1, h2⟩ := (mem_walk_md_files root tree m ex rel).mp hrel
    exact ⟨rel, h1, h2, rfl⟩
  · rintro ⟨rel, h1, h2, rfl⟩
    exact ⟨rel, (mem_walk_md_files root tree m ex rel).mpr ⟨h1, h2⟩, rfl⟩

theorem build_index_nodup (root : PyPath) (tree : FSEntries) (m : Option Nat)
    (ex : Option PyPath) (h : tree.wfB = true) :
    (build_index root tree m ex).Nodup := by
  rw [build_index]
  apply sortStrings_nodup
  apply List.Nodup.map_on
  · intro x hx y hy hxy
    have hx' := ((mem_walk_md_files root tree m ex x).mp hx).1
    have hy' := ((mem_walk_md_files root tree m ex y).mp hy).1
    exact posixStr_inj x y (filePaths_ne_nil tree x hx')
      (filePaths_ne_nil tree y hy')
      (filePaths_valid tree h x hx') (filePaths_valid tree h y hy') hxy
  · exact walkVisit_nodup root m ex tree [] h

/-! ## Claims -/

/-- C1: while a `Deleted` raw event for a path is pending in the debounce
window, a `Created` raw event for the same path collapses the pending
action to `Modified` (not delete-then-create); draining such a window
copies the file, so the mirror afterwards holds the watched content at the
path's relative location. -/
theorem claim1_delete_then_create_collapses
    (m : PendingMap) (src : PyPath) (d : Option PyPath)
    (root rel : PyPath) (c : String)
    (watched : PyPath → Option String) (copyOk : PyPath → Bool)
    (mirror : FileMap)
    (hpend : pmGet m src = some ("deleted", d))
    (hrel : getRelPath root src = some rel)
    (hw : watched src = some c) (hc : copyOk src = true) :
    pmGet (MDHandler.queue_event m "created" src none) src
      = some ("modified", none)
    ∧ fmGet (applyOps root watched copyOk mirror
        (MDHandler.process_pending_ops true watched
          (MDHandler.queue_event (MDHandler.queue_event [] "deleted" src none)
            "created" src none))) rel = some c := by
  constructor
  · exact pmGet_queue_event_collapse m src d hpend
  · rw [queue_event_empty]
    have h2 : MDHandler.queue_event [(src, ("deleted", none))] "created" src none
        = [(src, ("modified", none))] := by
      simp [MDHandler.queue_event, pmGet, pmSet]
    rw [h2]
    have h3 : MDHandler.process_pending_ops true watched
        [(src, ("modified", none))] = [MirrorOp.copy src, MirrorOp.rebuild] := by
      simp [MDHandler.process_pending_ops, MDHandler.action_ops]
    rw [h3]
    rw [show applyOps root watched copyOk mirror
          [MirrorOp.copy src, MirrorOp.rebuild]
        = applyOp root watched copyOk
            (applyOp root watched copyOk mirror (MirrorOp.copy src))
            MirrorOp.rebuild from rfl]
    rw [applyOp_copy_ok root src rel c watched copyOk mirror hrel hw hc]
    exact fmGet_fmSet_self mirror rel c

/-- Witness for C1 at a concrete window. -/
theorem claim1_witness :
    pmGet (MDHandler.queue_event [(["r", "a.md"], ("deleted", none))]
      "created" ["r", "a.md"] none) ["r", "a.md"] = some ("modified", none)
    ∧ fmGet (applyOps ["r"]
        (fun p => if p = ["r", "a.md"] then some "c" else none) (fun _ => true) []
        (MDHandler.process_pending_ops true
          (fun p => if p = ["r", "a.md"] then some "c" else none)
          (MDHandler.queue_event
            (MDHandler.queue_event [] "deleted" ["r", "a.md"] none)
            "created" ["r", "a.md"] none))) ["a.md"] = some "c" :=
  claim1_delete_then_create_collapses
    [(["r", "a.md"], ("deleted", none))] ["r", "a.md"] none ["r"] ["a.md"] "c"
    (fun p => if p = ["r", "a.md"] then some "c" else none) (fun _ => true) []
    (by decide) (by decide) (by decide) (by decide)

/-- C2 counterexample: a batch reachable from raw events (one `modified`
for `a.md`, one `moved b.md → a.md`) makes `_process_pending` copy the
path `a.md` twice in one drain, so "at most one copy operation per path"
fails as stated. -/
theorem claim2_counterexample :
    MDHandler.on_moved ⟨["r"], some ["r", "mirror"]⟩
      (MDHandler.on_modified ⟨["r"], some ["r", "mirror"]⟩ [] ["r", "a.md"])
      ["r", "b.md"] ["r", "a.md"]
      = [(["r", "a.md"], ("modified", none)),
         (["r", "b.md"], ("moved", some ["r", "a.md"]))]
    ∧ countOp (MirrorOp.copy ["r", "a.md"])
        (MDHandler.process_pending_ops true (fun _ => some "c")
          [(["r", "a.md"], ("modified", none)),
           (["r", "b.md"], ("moved", some ["r", "a.md"]))]) = 2 := by
  decide

/-- C2 amended: each drained batch triggers exactly one index rebuild; a
path that is not the destination of any pending `Moved` action is copied at
most once; and N rapid `Modified` events for one path coalesce to a batch
performing exactly one copy and one rebuild. (A path that is both a pending
key and another entry's move destination can be copied twice.) -/
theorem claim2_amended (ev : PendingMap) (watched : PyPath → Option String)
    (hwf : pmWF ev) (hne : ev ≠ []) :
    countOp MirrorOp.rebuild (MDHandler.process_pending_ops true watched ev) = 1
    ∧ (∀ p : PyPath, (∀ e ∈ ev, e.2.1 = "moved" → e.2.2 ≠ some p) →
        countOp (MirrorOp.copy p)
          (MDHandler.process_pending_ops true watched ev) ≤ 1)
    ∧ (∀ (p : PyPath) (n : Nat),
        MDHandler.process_pending_ops true watched (queueModifiedN p (n + 1))
          = [MirrorOp.copy p, MirrorOp.rebuild]) := by
  have hE : ev.isEmpty = false := by
    cases ev
    · exact absurd rfl hne
    · rfl
  refine ⟨?_, ?_, ?_⟩
  · rw [MDHandler.process_pending_ops, hE]
    simp only [Bool.false_eq_true, if_false, if_pos]
    rw [countOp_append, countOp_rebuild_flatMap, countOp_cons, countOp_nil]
    simp
  · intro p hmv
    rw [MDHandler.process_pending_ops, hE]
    simp only [Bool.false_eq_true, if_false, if_pos]
    rw [countOp_append, countOp_cons, countOp_nil]
    have := countOp_copy_flatMap_le_one watched p ev hwf hmv
    simp only [reduceCtorEq, if_false]
    omega
  · intro p n
    rw [queueModifiedN_succ]
    simp [MDHandler.process_pending_ops, MDHandler.action_ops]

/-- Witness for the amended C2 at a concrete two-entry batch. -/
theorem claim2_witness :
    countOp MirrorOp.rebuild (MDHandler.process_pending_ops true (fun _ => none)
      [(["r", "a.md"], ("modified", none)), (["r", "b.md"], ("deleted", none))]) = 1
    ∧ countOp (MirrorOp.copy ["r", "a.md"])
        (MDHandler.process_pending_ops true (fun _ => none)
          [(["r", "a.md"], ("modified", none)),
           (["r", "b.md"], ("deleted", none))]) ≤ 1
    ∧ MDHandler.process_pending_ops true (fun _ => none)
        (queueModifiedN ["r", "a.md"] 3)
        = [MirrorOp.copy ["r", "a.md"], MirrorOp.rebuild] := by
  have h := claim2_amended
    [(["r", "a.md"], ("modified", none)), (["r", "b.md"], ("deleted", none))]
    (fun _ => none) (by unfold pmWF; decide) (by decide)
  exact ⟨h.1, h.2.1 ["r", "a.md"] (by decide), h.2.2 ["r", "a.md"] 2⟩

/-- C3: if enumeration or the temporary-file write fails (or the final
rename itself fails), the previously written index document at the output
path is unchanged; on success the output path holds exactly the fully
serialized new document, installed by the rename. -/
theorem claim3_index_write_atomic (env : IndexEnv) (root : PyPath)
    (tree : FSEntries) (maxDepth : Option Nat) (exclude : Option PyPath)
    (st : IndexState) :
    ((write_index env root tree maxDepth exclude st).2.isOk = false →
      (write_index env root tree maxDepth exclude st).1.outDoc = st.outDoc)
    ∧ (∀ n, (write_index env root tree maxDepth exclude st).2 = Except.ok n →
        (write_index env root tree maxDepth exclude st).1.outDoc
          = some (serializeIndex (build_index root tree maxDepth exclude))
        ∧ (write_index env root tree maxDepth exclude st).1.tmpDoc = none
        ∧ n = (build_index root tree maxDepth exclude).length) := by
  unfold write_index
  by_cases h1 : env.enumOk <;> by_cases h2 : env.writeOk <;>
    by_cases h3 : env.renameOk <;>
      simp [h1, h2, h3, Except.isOk, Except.toBool]

/-- Witness for C3: a write failure before the rename leaves the previous
document in place. -/
theorem claim3_witness :
    (write_index ⟨true, false, 3, true⟩ ["r"]
      (FSEntries.cons "a.md" FSTree.file FSEntries.nil) none none
      ⟨some "prev", none⟩).1.outDoc = some "prev" :=
  (claim3_index_write_atomic ⟨true, false, 3, true⟩ ["r"]
    (FSEntries.cons "a.md" FSTree.file FSEntries.nil) none none
    ⟨some "prev", none⟩).1 (by decide)

/-- C4 counterexample: a `deleted` raw event for a markdown path inside the
mirror directory (mirror inside the watched root) is queued as a pending
action and drains into a mirror delete plus an index rebuild, so "every
raw event inside the mirror is excluded" fails for deleted events. -/
theorem claim4_counterexample :
    List.isPrefixOf ["r", "md"] (["r", "md", "x.md"] : PyPath) = true
    ∧ MDHandler.on_deleted ⟨["r"], some ["r", "md"]⟩ [] ["r", "md", "x.md"]
        = [(["r", "md", "x.md"], ("deleted", none))]
    ∧ MDHandler.process_pending_ops true (fun _ => none)
        (MDHandler.on_deleted ⟨["r"], some ["r", "md"]⟩ [] ["r", "md", "x.md"])
        = [MirrorOp.delete ["r", "md", "x.md"], MirrorOp.rebuild] := by
  decide

/-- C4 amended: `created` and `modified` raw events for paths inside the
mirror directory are never queued (the `_should_handle` filter rejects
them); `deleted` and both-endpoint `moved` events bypass that filter. -/
theorem claim4_amended (cfg : HandlerCfg) (m : PendingMap) (mir src : PyPath)
    (hm : cfg.mirror_to = some mir) (hpre : mir.isPrefixOf src = true) :
    MDHandler.on_created cfg m src = m ∧ MDHandler.on_modified cfg m src = m := by
  have hsh : MDHandler.should_handle cfg src = false := by
    unfold MDHandler.should_handle
    rw [hm]
    by_cases hmd : is_md_path src <;> simp [hmd, hpre]
  constructor <;> simp [MDHandler.on_created, MDHandler.on_modified, hsh]

/-- Witness for the amended C4 at a concrete mirror-internal path. -/
theorem claim4_witness :
    MDHandler.on_created ⟨["r"], some ["r", "md"]⟩ [] ["r", "md", "x.md"] = []
    ∧ MDHandler.on_modified ⟨["r"], some ["r", "md"]⟩ [] ["r", "md", "x.md"] = [] :=
  claim4_amended ⟨["r"], some ["r", "md"]⟩ [] ["r", "md"] ["r", "md", "x.md"]
    rfl (by decide)

/-- C5 counterexample: with every per-attempt primitive healthy but the
destination-directory creation failing, `copy_file_with_retry` raises to
its caller instead of returning a boolean — the `mkdir` call sits outside
the retry loop's exception handler. -/
theorem claim5_counterexample :
    copy_file_with_retry
      ⟨false, fun _ => IOOutcome.ok true, fun _ => true, fun _ => IOOutcome.ok ()⟩
      COPY_RETRY_ATTEMPTS = Except.error () := rfl

/-- C5 amended: once the destination directory has been created,
`copy_file_with_retry` never raises: every I/O failure inside the attempt
loop (existence check, stability check, byte copy) is absorbed and the call
returns a boolean, with `true` only after an attempt whose existence check,
stability check and byte copy all succeeded. -/
theorem claim5_amended (env : CopyEnv) (retries : Nat)
    (h : env.mkdirOk = true) :
    copy_file_with_retry env retries = Except.ok (copyAttempts env retries 0)
    ∧ (copyAttempts env retries 0 = true →
        ∃ j, env.srcExists j = IOOutcome.ok true ∧ env.stable j = true
          ∧ env.copy2 j = IOOutcome.ok ()) := by
  constructor
  · rw [copy_file_with_retry, if_pos h]
  · exact copyAttempts_true_ex env retries 0

/-- Witness for the amended C5 at a concrete healthy environment. -/
theorem claim5_witness :
    copy_file_with_retry
      ⟨true, fun _ => IOOutcome.ok true, fun _ => true, fun _ => IOOutcome.ok ()⟩
      COPY_RETRY_ATTEMPTS
      = Except.ok (copyAttempts
          ⟨true, fun _ => IOOutcome.ok true, fun _ => true, fun _ => IOOutcome.ok ()⟩
          COPY_RETRY_ATTEMPTS 0)
    ∧ ∃ j, (fun (_ : Nat) => IOOutcome.ok true) j = IOOutcome.ok (true : Bool)
        ∧ (fun (_ : Nat) => (true : Bool)) j = true
        ∧ (fun (_ : Nat) => IOOutcome.ok ()) j = IOOutcome.ok () := by
  have h := claim5_amended
    ⟨true, fun _ => IOOutcome.ok true, fun _ => true, fun _ => IOOutcome.ok ()⟩
    COPY_RETRY_ATTEMPTS rfl
  exact ⟨h.1, h.2 (by decide)⟩

/-- C7 counterexample: for a rename whose source is a markdown file in a
hidden directory (hence failing the tracked-file predicate) and whose
destination passes it, the handler records `Moved` at the source — not
`Created` at the destination as the claim states for
"only the destination satisfies the predicate". -/
theorem claim7_counterexample :
    MDHandler.should_handle ⟨["r"], some ["r", "mirror"]⟩
      ["r", ".hidden", "a.md"] = false
    ∧ MDHandler.should_handle ⟨["r"], some ["r", "mirror"]⟩ ["r", "b.md"] = true
    ∧ MDHandler.on_moved ⟨["r"], some ["r", "mirror"]⟩ []
        ["r", ".hidden", "a.md"] ["r", "b.md"]
        = [(["r", ".hidden", "a.md"], ("moved", some ["r", "b.md"]))]
    ∧ pmGet (MDHandler.on_moved ⟨["r"], some ["r", "mirror"]⟩ []
        ["r", ".hidden", "a.md"] ["r", "b.md"]) ["r", "b.md"] = none := by
  decide

/-- C7 amended: the move dispatch tests only the markdown extension of the
endpoints: both endpoints `.md` records `Moved(dest)` at the source; only
the destination `.md` records `Created` at the destination provided the
destination passes the full `_should_handle` filter; only the source `.md`
records `Deleted` at the source provided the source lies under the root. -/
theorem claim7_amended (cfg : HandlerCfg) (m : PendingMap) (src dest : PyPath)
    (h1 : pmGet m src = none) (h2 : pmGet m dest = none) :
    (is_md_path src = true → is_md_path dest = true →
      pmGet (MDHandler.on_moved cfg m src dest) src = some ("moved", some dest))
    ∧ (is_md_path src = false → is_md_path dest = true →
        MDHandler.should_handle cfg dest = true →
        pmGet (MDHandler.on_moved cfg m src dest) dest = some ("created", none))
    ∧ (is_md_path src = true → is_md_path dest = false →
        (getRelPath cfg.root src).isSome = true →
        pmGet (MDHandler.on_moved cfg m src dest) src = some ("deleted", none)) := by
  refine ⟨?_, ?_, ?_⟩
  · intro hs hd
    rw [on_moved_both_md cfg m src dest hs hd, queue_event_fresh m _ _ _ h1]
    exact pmGet_pmSet_self m src ("moved", some dest)
  · intro hs hd hsh
    rw [on_moved_dest_md cfg m src dest hs hd, if_pos hsh,
      queue_event_fresh m _ _ _ h2]
    exact pmGet_pmSet_self m dest ("created", none)
  · intro hs hd hrel
    rw [on_moved_src_md cfg m src dest hs hd, if_pos hrel,
      queue_event_fresh m _ _ _ h1]
    exact pmGet_pmSet_self m src ("deleted", none)

/-- Witness for the amended C7 at a concrete both-endpoint rename. -/
theorem claim7_witness :
    pmGet (MDHandler.on_moved ⟨["r"], some ["r", "mirror"]⟩ []
      ["r", "a.md"] ["r", "b.md"]) ["r", "a.md"]
      = some ("moved", some ["r", "b.md"]) :=
  (claim7_amended ⟨["r"], some ["r", "mirror"]⟩ [] ["r", "a.md"] ["r", "b.md"]
    rfl rfl).1 (by decide) (by decide)

/-- C8: applying a `Moved(dest)` action deletes the old mirror entry and
then copies the destination, so a rename of tracked A to tracked B leaves
the mirror with B present, holding the watched content at B (which is A's
content after the rename), and A absent. -/
theorem claim8_move_semantics (root src dest relA relB : PyPath) (c : String)
    (watched : PyPath → Option String) (copyOk : PyPath → Bool)
    (mirror : FileMap)
    (hA : getRelPath root src = some relA)
    (hB : getRelPath root dest = some relB)
    (hne : relA ≠ relB) (hw : watched dest = some c)
    (hc : copyOk dest = true) :
    fmGet (MDHandler.mirror_move root watched copyOk mirror src dest) relB
      = some c
    ∧ fmGet (MDHandler.mirror_move root watched copyOk mirror src dest) relA
      = none := by
  have hmv : MDHandler.mirror_move root watched copyOk mirror src dest
      = fmSet (fmErase mirror relA) relB c := by
    rw [MDHandler.mirror_move, MDHandler.mirror_delete, hA, hw]
    simp [MDHandler.mirror_copy, hB, hw, hc]
  rw [hmv]
  constructor
  · exact fmGet_fmSet_self (fmErase mirror relA) relB c
  · rw [fmGet_fmSet_ne (fmErase mirror relA) relB relA c hne]
    exact fmGet_fmErase_self mirror relA

/-- Witness for C8 at a concrete rename. -/
theorem claim8_witness :
    fmGet (MDHandler.mirror_move ["r"]
      (fun p => if p = ["r", "b.md"] then some "body" else none) (fun _ => true)
      [(["a.md"], "body")] ["r", "a.md"] ["r", "b.md"]) ["b.md"] = some "body"
    ∧ fmGet (MDHandler.mirror_move ["r"]
        (fun p => if p = ["r", "b.md"] then some "body" else none) (fun _ => true)
        [(["a.md"], "body")] ["r", "a.md"] ["r", "b.md"]) ["a.md"] = none :=
  claim8_move_semantics ["r"] ["r", "a.md"] ["r", "b.md"] ["a.md"] ["b.md"]
    "body" (fun p => if p = ["r", "b.md"] then some "body" else none)
    (fun _ => true) [(["a.md"], "body")]
    (by decide) (by decide) (by decide) (by decide) (by decide)

/-- C9: the stability probe returns stable exactly when the initial
existence and regular-file checks pass and both size samples succeed with
equal sizes; in particular any raised I/O error during sampling yields
not-stable, and the probe itself never raises (it is a total boolean
function). -/
theorem claim9_stability_probe (env : StableEnv) :
    is_file_stable env = true ↔
      env.exists0 = true ∧ env.isFile0 = true
        ∧ ∃ s, env.stat0 = IOOutcome.ok s ∧ env.stat1 = IOOutcome.ok s := by
  rcases env with ⟨e0, f0, s0, s1⟩
  cases e0 <;> cases f0 <;> cases s0 <;> cases s1 <;> simp [is_file_stable]
  exact eq_comm

/-- Witness for C9: equal successful samples at an existing regular file
probe as stable. -/
theorem claim9_witness :
    is_file_stable ⟨true, true, IOOutcome.ok 5, IOOutcome.ok 5⟩ = true :=
  (claim9_stability_probe ⟨true, true, IOOutcome.ok 5, IOOutcome.ok 5⟩).mpr
    ⟨rfl, rfl, ⟨5, rfl, rfl⟩⟩

/-- C10: the extension predicate is case-insensitive — `is_md_file` holds
exactly when the lowercased string form ends with `".md"`, so paths such as
`NOTES.MD` pass the handler filter, are queued and copied on a modification
event, and appear in the index. -/
theorem claim10_case_insensitive_md :
    (∀ s : String, is_md_file s = endsWithStr (lowerStr s) ".md")
    ∧ is_md_file "NOTES.MD" = true
    ∧ is_md_file "a.Md" = true
    ∧ is_md_file "notes.txt" = false
    ∧ MDHandler.should_handle ⟨["r"], some ["r", "md"]⟩ ["r", "NOTES.MD"] = true
    ∧ MDHandler.on_modified ⟨["r"], some ["r", "md"]⟩ [] ["r", "NOTES.MD"]
        = [(["r", "NOTES.MD"], ("modified", none))]
    ∧ MDHandler.process_pending_ops true (fun _ => some "c")
        [(["r", "NOTES.MD"], ("modified", none))]
        = [MirrorOp.copy ["r", "NOTES.MD"], MirrorOp.rebuild]
    ∧ build_index ["r"] (FSEntries.cons "NOTES.MD" FSTree.file FSEntries.nil)
        none (some ["r", "md"]) = ["NOTES.MD"] :=
  ⟨fun _ => rfl, by decide, by decide, by decide, by decide, by decide,
    by decide, by decide⟩

/-- C6: for a well-formed tree, the built index is exactly the tracked-file
set of the designated root — extension filter, hidden-directory rules,
depth limit and exclusion applied — rendered as POSIX-style relative paths,
sorted ascending lexicographically, with no duplicates. -/
theorem claim6_index_matches_tracked_set (root : PyPath) (tree : FSEntries)
    (m : Option Nat) (ex : Option PyPath) (hwf : tree.wfB = true) :
    SortedStr (build_index root tree m ex)
    ∧ (build_index root tree m ex).Nodup
    ∧ (∀ s, s ∈ build_index root tree m ex ↔
        ∃ rel, rel ∈ tree.filePaths ∧ trackedSpec root m ex rel = true
          ∧ s = posixStr rel) :=
  ⟨sortStrings_sorted _, build_index_nodup root tree m ex hwf,
    fun s => mem_build_index root tree m ex s⟩

/-- Witness for C6 at a concrete tree with a hidden directory, a non-md
file, an uppercase extension and a mirror exclusion. -/
theorem claim6_witness :
    SortedStr (build_index ["r"]
      (FSEntries.cons "a"
        (FSTree.dir (FSEntries.cons "x.md" FSTree.file
          (FSEntries.cons "z.txt" FSTree.file FSEntries.nil)))
        (FSEntries.cons ".hidden"
          (FSTree.dir (FSEntries.cons "y.md" FSTree.file FSEntries.nil))
          (FSEntries.cons "NOTES.MD" FSTree.file
            (FSEntries.cons "md"
              (FSTree.dir (FSEntries.cons "w.md" FSTree.file FSEntries.nil))
              FSEntries.nil))))
      none (some ["r", "md"]))
    ∧ (build_index ["r"]
        (FSEntries.cons "a"
          (FSTree.dir (FSEntries.cons "x.md" FSTree.file
            (FSEntries.cons "z.txt" FSTree.file FSEntries.nil)))
          (FSEntries.cons ".hidden"
            (FSTree.dir (FSEntries.cons "y.md" FSTree.file FSEntries.nil))
            (FSEntries.cons "NOTES.MD" FSTree.file
              (FSEntries.cons "md"
                (FSTree.dir (FSEntries.cons "w.md" FSTree.file FSEntries.nil))
                FSEntries.nil))))
        none (some ["r", "md"])).Nodup := by
  have h := claim6_index_matches_tracked_set ["r"]
    (FSEntries.cons "a"
      (FSTree.dir (FSEntries.cons "x.md" FSTree.file
        (FSEntries.cons "z.txt" FSTree.file FSEntries.nil)))
      (FSEntries.cons ".hidden"
        (FSTree.dir (FSEntries.cons "y.md" FSTree.file FSEntries.nil))
        (FSEntries.cons "NOTES.MD" FSTree.file
          (FSEntries.cons "md"
            (FSTree.dir (FSEntries.cons "w.md" FSTree.file FSEntries.nil))
            FSEntries.nil))))
    none (some ["r", "md"]) (by decide)
  exact ⟨h.1, h.2.1⟩

end WatchModel
